import Mathlib

/-!
Shallow embedding of the getch-rs key decoder (src/lib.rs) and proofs about it.

Bytes are modelled as natural numbers (values < 256 where relevant), the byte
iterator handed to the parse functions as a list of `Except Nat Nat` items
(`Except.ok b` a byte, `Except.error e` an IO error carrying an error code),
and end of input as the end of the list, mirroring the Rust iterator of
`Result<u8, std::io::Error>` handed to `parse_key`, `parse_csi` and
`parse_utf8_char`.  A Rust panic (a failed `unwrap`) is a distinct outcome of
the embedded functions so that panicking paths can be reasoned about.
-/

namespace GetchRs

deriving instance DecidableEq for Except

/-- Stream of byte-read results, as produced by the `bytes()` iterator. -/
abbrev ByteStream := List (Except Nat Nat)

/-- Keys (the `Key` enum of src/lib.rs).  Characters are represented by their
Unicode code points. -/
inductive Key where
  | EOF
  | Backspace
  | Delete
  | Esc
  | Up
  | Down
  | Right
  | Left
  | End
  | Home
  | BackTab
  | Insert
  | PageUp
  | PageDown
  | F (n : Nat)
  | Char (c : Nat)
  | Alt (c : Nat)
  | Ctrl (c : Nat)
  | Other (bs : List Nat)
  deriving DecidableEq, Repr

/-- Outcome of a decode step: a value together with the remaining stream, a
propagated IO error together with the remaining stream, or a panic (a Rust
`unwrap` failure). -/
inductive PRes (α : Type) where
  | ok : α → ByteStream → PRes α
  | ioErr : Nat → ByteStream → PRes α
  | crash : PRes α
  deriving DecidableEq, Repr

/-- Whether a byte is a UTF-8 continuation byte (0x80..=0xBF). -/
def isCont (b : Nat) : Bool := decide (0x80 ≤ b ∧ b ≤ 0xBF)

/-- Allowed range of the second byte of a multi-byte UTF-8 sequence; it depends
on the lead byte (this encodes the overlong and surrogate exclusions of Rust
`str::from_utf8`). -/
def cont2ok (b0 b1 : Nat) : Bool :=
  if b0 = 0xE0 then decide (0xA0 ≤ b1 ∧ b1 ≤ 0xBF)
  else if b0 = 0xED then decide (0x80 ≤ b1 ∧ b1 ≤ 0x9F)
  else if b0 = 0xF0 then decide (0x90 ≤ b1 ∧ b1 ≤ 0xBF)
  else if b0 = 0xF4 then decide (0x80 ≤ b1 ∧ b1 ≤ 0x8F)
  else isCont b1

/-- Decode the first UTF-8 scalar value of a byte list, following the
well-formedness rules enforced by Rust `str::from_utf8` (no overlongs, no
surrogates, maximum U+10FFFF).  Returns the code point and the remaining
bytes. -/
def utf8DecodeOne : List Nat → Option (Nat × List Nat)
  | [] => none
  | b0 :: r =>
    if b0 ≤ 0x7F then some (b0, r)
    else if 0xC2 ≤ b0 ∧ b0 ≤ 0xDF then
      match r with
      | b1 :: r1 =>
        if isCont b1 then some ((b0 - 0xC0) * 0x40 + (b1 - 0x80), r1) else none
      | [] => none
    else if 0xE0 ≤ b0 ∧ b0 ≤ 0xEF then
      match r with
      | b1 :: b2 :: r2 =>
        if cont2ok b0 b1 && isCont b2 then
          some (((b0 - 0xE0) * 0x40 + (b1 - 0x80)) * 0x40 + (b2 - 0x80), r2)
        else none
      | _ => none
    else if 0xF0 ≤ b0 ∧ b0 ≤ 0xF4 then
      match r with
      | b1 :: b2 :: b3 :: r3 =>
        if cont2ok b0 b1 && isCont b2 && isCont b3 then
          some ((((b0 - 0xF0) * 0x40 + (b1 - 0x80)) * 0x40 + (b2 - 0x80)) * 0x40
            + (b3 - 0x80), r3)
        else none
      | _ => none
    else none

/-- Run `utf8DecodeOne` repeatedly; the fuel bounds the number of characters
(each character consumes at least one byte, so the length is enough fuel). -/
def utf8ChainOk : Nat → List Nat → Bool
  | _, [] => true
  | 0, _ :: _ => false
  | fuel + 1, b :: r =>
    match utf8DecodeOne (b :: r) with
    | some (_, rest) => utf8ChainOk fuel rest
    | none => false

/-- Whether a byte list is valid UTF-8, i.e. Rust `str::from_utf8` succeeds. -/
def validUtf8 (l : List Nat) : Bool := utf8ChainOk l.length l

/-- Bytes carried by the Ok items of a stream fragment. -/
def okBytes (l : ByteStream) : List Nat :=
  l.filterMap fun x => match x with | Except.ok b => some b | Except.error _ => none

/-- Loop body of `parse_utf8_char` for a non-ASCII lead byte (src/lib.rs):
accumulate bytes until the buffer is valid UTF-8, the buffer reaches 4 bytes,
or the source ends or yields an error. -/
def parse_utf8_loop : List Nat → ByteStream → PRes (Except (List Nat) Nat)
  | bytes, [] => .ok (Except.error bytes) []
  | bytes, Except.error _ :: rest => .ok (Except.error bytes) rest
  | bytes, Except.ok next :: rest =>
    let bytes2 := bytes ++ [next]
    if validUtf8 bytes2 then
      match utf8DecodeOne bytes2 with
      | some (ch, _) => .ok (Except.ok ch) rest
      | none => .crash
    else if 4 ≤ bytes2.length then .ok (Except.error bytes2) rest
    else parse_utf8_loop bytes2 rest

/-- Parse `c` as a single byte ASCII char or a variable size UTF-8 char
(`parse_utf8_char` of src/lib.rs). -/
def parse_utf8_char (c : Nat) (iter : ByteStream) : PRes (Except (List Nat) Nat) :=
  if c ≤ 0x7F then .ok (Except.ok c) iter
  else parse_utf8_loop [c] iter

/-- Split a byte list on semicolons, as `str::split` with separator `;` does on
a string (all separator occurrences are single ASCII bytes). -/
def splitSemi : List Nat → List (List Nat)
  | [] => [[]]
  | b :: rest =>
    if b = 0x3B then [] :: splitSemi rest
    else
      match splitSemi rest with
      | [] => [[b]]
      | p :: ps => (b :: p) :: ps

/-- Fold a byte list as decimal ASCII digits; none as soon as a non-digit byte
appears. -/
def digitsVal (l : List Nat) : Option Nat :=
  l.foldl
    (fun acc b =>
      match acc with
      | some v => if 0x30 ≤ b ∧ b ≤ 0x39 then some (v * 10 + (b - 0x30)) else none
      | none => none)
    (some 0)

/-- Core of u8 parsing after optional sign stripping: one or more decimal
digits with value at most 255. -/
def parseU8Core (t : List Nat) : Option Nat :=
  if t.isEmpty then none
  else (digitsVal t).elim none fun v => if v ≤ 0xFF then some v else none

/-- Rust `u8::from_str` on the bytes of a piece: an optional leading plus sign,
then one or more decimal digits, value at most 255. -/
def parse_u8 (s : List Nat) : Option Nat :=
  parseU8Core (if s.head? = some 0x2B then s.tail else s)

/-- Parse every piece as u8, none if any piece fails (in the code that failure
is an `unwrap` panic inside the map over the split pieces). -/
def parseAll : List (List Nat) → Option (List Nat)
  | [] => some []
  | p :: ps =>
    (parse_u8 p).elim none fun n => (parseAll ps).elim none fun ns => some (n :: ns)

/-- All parameters of a `~`-terminated CSI sequence, each parsed as u8. -/
def parseParams (buf : List Nat) : Option (List Nat) :=
  parseAll (splitSemi buf)

/-- Handling of the final byte after the numeric CSI loop (the `match c` at the
end of the digit branch of `parse_csi`, src/lib.rs). -/
def csi_num_finish (buf : List Nat) (c : Nat) (rest : ByteStream) : PRes Key :=
  if c = 0x7E then
    if validUtf8 buf then
      (parseParams buf).elim PRes.crash fun nums =>
        if nums.isEmpty ∨ 1 < nums.length then
          .ok (Key.Other (0x1B :: 0x5B :: buf)) rest
        else
          let v := nums.headD 0
          if v = 1 ∨ v = 7 then .ok Key.Home rest
          else if v = 2 then .ok Key.Insert rest
          else if v = 3 then .ok Key.Delete rest
          else if v = 4 ∨ v = 8 then .ok Key.End rest
          else if v = 5 then .ok Key.PageUp rest
          else if v = 6 then .ok Key.PageDown rest
          else if 11 ≤ v ∧ v ≤ 15 then .ok (Key.F (v - 10)) rest
          else if 17 ≤ v ∧ v ≤ 21 then .ok (Key.F (v - 11)) rest
          else if 23 ≤ v ∧ v ≤ 24 then .ok (Key.F (v - 12)) rest
          else .ok (Key.Other (0x1B :: 0x5B :: (buf ++ [v]))) rest
    else PRes.crash
  else .ok (Key.Other (0x1B :: 0x5B :: (buf ++ [c]))) rest

/-- Numbered-escape loop of `parse_csi`: keep reading bytes until one in the
final-byte range 64..=126 arrives; a missing byte or an IO error hits
`unwrap` and panics. -/
def csi_num_loop (buf : List Nat) : ByteStream → PRes Key
  | [] => .crash
  | Except.error _ :: _ => .crash
  | Except.ok c :: rest =>
    if 64 ≤ c ∧ c ≤ 126 then csi_num_finish buf c rest
    else csi_num_loop (buf ++ [c]) rest

/-- Legacy Esc [ [ branch of `parse_csi`: a byte in A..E maps to F1..F5,
anything else (or end of input, or an error) folds into `Other`. -/
def parse_csi_legacy : ByteStream → PRes Key
  | [] => .ok (Key.Other [0x1B, 0x5B, 0x5B]) []
  | Except.error _ :: r2 => .ok (Key.Other [0x1B, 0x5B, 0x5B]) r2
  | Except.ok v :: r2 =>
    if 0x41 ≤ v ∧ v ≤ 0x45 then .ok (Key.F (1 + v - 0x41)) r2
    else .ok (Key.Other [0x1B, 0x5B, 0x5B, v]) r2

/-- Parse a CSI sequence, just after reading Esc [ (`parse_csi` of
src/lib.rs). -/
def parse_csi : ByteStream → PRes Key
  | [] => .ok (Key.Other [0x1B, 0x5B]) []
  | Except.error _ :: rest => .ok (Key.Other [0x1B, 0x5B]) rest
  | Except.ok b :: rest =>
    if b = 0x5B then parse_csi_legacy rest
    else if b = 0x41 then .ok Key.Up rest
    else if b = 0x42 then .ok Key.Down rest
    else if b = 0x43 then .ok Key.Right rest
    else if b = 0x44 then .ok Key.Left rest
    else if b = 0x46 then .ok Key.End rest
    else if b = 0x48 then .ok Key.Home rest
    else if b = 0x5A then .ok Key.BackTab rest
    else if 0x30 ≤ b ∧ b ≤ 0x39 then csi_num_loop [b] rest
    else .ok (Key.Other [0x1B, 0x5B, b]) rest

/-- Wrap the outcome of `parse_utf8_char` into a key, with `mk` applied to a
successfully decoded character and the failure bytes folded into `Other`. -/
def utf8ToKey (mk : Nat → Key) : PRes (Except (List Nat) Nat) → PRes Key
  | .ok (Except.ok ch) r => .ok (mk ch) r
  | .ok (Except.error vec) r => .ok (Key.Other vec) r
  | .ioErr e r => .ioErr e r
  | .crash => .crash

/-- SS3 branch of `parse_key` after Esc O: a byte in P..S maps to F1..F4,
anything else (or end of input, or an error) folds into `Other`. -/
def parse_ss3 : ByteStream → PRes Key
  | [] => .ok (Key.Other [0x1B, 0x4F]) []
  | Except.error _ :: r2 => .ok (Key.Other [0x1B, 0x4F]) r2
  | Except.ok v :: r2 =>
    if 0x50 ≤ v ∧ v ≤ 0x53 then .ok (Key.F (1 + v - 0x50)) r2
    else .ok (Key.Other [0x1B, 0x4F, v]) r2

/-- Parse an event from `item` and possibly subsequent bytes through the
iterator (`parse_key` of src/lib.rs). -/
def parse_key (item : Nat) (iter : ByteStream) : PRes Key :=
  if item = 0x1B then
    match iter with
    | [] => .ok Key.Esc []
    | Except.error e :: rest => .ioErr e rest
    | Except.ok c :: rest =>
      if c = 0x5B then parse_csi rest
      else if c = 0x4F then parse_ss3 rest
      else utf8ToKey Key.Alt (parse_utf8_char c rest)
  else if item = 0x0A ∨ item = 0x0D then .ok (Key.Char 0x0D) iter
  else if item = 0x09 then .ok (Key.Char 0x09) iter
  else if item = 0x08 then .ok Key.Backspace iter
  else if item = 0x7F then .ok Key.Delete iter
  else if 0x01 ≤ item ∧ item ≤ 0x1A then .ok (Key.Ctrl (item - 0x01 + 0x61)) iter
  else if 0x1C ≤ item ∧ item ≤ 0x1F then .ok (Key.Ctrl (item - 0x1C + 0x34)) iter
  else if item = 0x00 then .ok Key.EOF iter
  else utf8ToKey Key.Char (parse_utf8_char item iter)

/-- Result of the short read into the 2-byte buffer performed by `getch`: the
delivered bytes, or an IO error. -/
inductive ReadResult where
  | bytes : List Nat → ReadResult
  | fail : Nat → ReadResult
  deriving DecidableEq, Repr

/-- Number of bytes delivered by a read result. -/
def readLen : ReadResult → Nat
  | .bytes l => l.length
  | .fail _ => 0

/-- One call of `Getch::getch` (src/lib.rs).  Arguments: the current leftover
slot, the result of the 2-byte read (performed only when the slot is empty),
and the live byte stream used for continuation reads.  Returns `none` exactly
when the `unreachable` arm for a read of more than 2 bytes is hit; otherwise
the decode outcome together with the new leftover slot.  In the 2-byte case
the decoder is run on the chained iterator `buf[1]` followed by the stream,
and `buf[1]` becomes the new leftover exactly when the decoder consumed
nothing from that chain. -/
def getch (leftover : Option Nat) (r : ReadResult) (stream : ByteStream) :
    Option (PRes Key × Option Nat) :=
  match leftover with
  | some c => some (parse_key c stream, none)
  | none =>
    match r with
    | .fail e => some (.ioErr e stream, none)
    | .bytes [] => some (.ok (Key.Ctrl 0x7A) stream, none)
    | .bytes [b0] =>
      if b0 = 0x1B then some (.ok Key.Esc stream, none)
      else some (parse_key b0 stream, none)
    | .bytes [b0, b1] =>
      match parse_key b0 (Except.ok b1 :: stream) with
      | .ok k rest =>
        if rest.length = stream.length + 1 then some (.ok k stream, some b1)
        else some (.ok k rest, none)
      | .ioErr e rest =>
        if rest.length = stream.length + 1 then some (.ioErr e stream, some b1)
        else some (.ioErr e rest, none)
      | .crash => some (.crash, none)
    | .bytes (_ :: _ :: _ :: _) => none

/-- Key table for a recognized single numeric CSI parameter, written from the
claim text (1 or 7 to Home, 2 Insert, 3 Delete, 4 or 8 End, 5 PageUp,
6 PageDown, 11-15 F1..F5, 17-21 F6..F10, 23-24 F11..F12); to be compared with
`csi_num_finish` from the source. -/
def specTildeKey (v : Nat) : Key :=
  if v = 1 ∨ v = 7 then Key.Home
  else if v = 2 then Key.Insert
  else if v = 3 then Key.Delete
  else if v = 4 ∨ v = 8 then Key.End
  else if v = 5 then Key.PageUp
  else if v = 6 then Key.PageDown
  else if 11 ≤ v ∧ v ≤ 15 then Key.F (v - 10)
  else if 17 ≤ v ∧ v ≤ 21 then Key.F (v - 11)
  else if 23 ≤ v ∧ v ≤ 24 then Key.F (v - 12)
  else Key.Other []

/-- Parameter values of a `~`-terminated CSI sequence that the claim lists as
recognized. -/
def csiRecognized (v : Nat) : Prop :=
  v = 1 ∨ v = 2 ∨ v = 3 ∨ v = 4 ∨ v = 5 ∨ v = 6 ∨ v = 7 ∨ v = 8 ∨
    (11 ≤ v ∧ v ≤ 15) ∨ (17 ≤ v ∧ v ≤ 21) ∨ (23 ≤ v ∧ v ≤ 24)

instance (v : Nat) : Decidable (csiRecognized v) := by
  unfold csiRecognized; infer_instance

/-- C1: false on the code.  For Esc [ 0 ~ the unknown-single-parameter fallback
of the CSI sub-parser pushes the parsed parameter value 0 into the payload in
place of the consumed terminator byte 0x7E, and for Esc [ 1 ; 2 ~ the
multi-parameter fallback omits the consumed terminator altogether, so the
`Other` payload does not equal the exact byte sequence consumed. -/
theorem c1_csi_fallback_payload_mismatch :
    parse_csi [Except.ok 0x30, Except.ok 0x7E] =
      .ok (Key.Other [0x1B, 0x5B, 0x30, 0x00]) [] ∧
    parse_csi [Except.ok 0x31, Except.ok 0x3B, Except.ok 0x32, Except.ok 0x7E] =
      .ok (Key.Other [0x1B, 0x5B, 0x31, 0x3B, 0x32]) [] ∧
    ([0x1B, 0x5B, 0x30, 0x00] : List Nat) ≠ [0x1B, 0x5B, 0x30, 0x7E] ∧
    ([0x1B, 0x5B, 0x31, 0x3B, 0x32] : List Nat) ≠ [0x1B, 0x5B, 0x31, 0x3B, 0x32, 0x7E] := by
  refine ⟨by decide, by decide, by decide, by decide⟩

/-- C2 counterexample: a read of 0 bytes makes `getch` return `Ctrl('z')`
(0x7A), which is not the `EOF` variant produced for a decoded 0x00 byte. -/
theorem c2_zero_read_not_eof :
    getch none (ReadResult.bytes []) [] = some (.ok (Key.Ctrl 0x7A) [], none) ∧
    Key.Ctrl 0x7A ≠ Key.EOF := by
  exact ⟨rfl, by decide⟩

/-- C2 as amended: when the read attempt in `getch` returns 0 bytes the call
succeeds and emits `Ctrl('z')`, a different variant from the `EOF` emitted
when a 0x00 byte is decoded. -/
theorem c2_zero_read_ctrl_z :
    (∀ s, getch none (ReadResult.bytes []) s = some (.ok (Key.Ctrl 0x7A) s, none)) ∧
    (∀ iter, parse_key 0x00 iter = .ok Key.EOF iter) ∧
    Key.Ctrl 0x7A ≠ Key.EOF := by
  exact ⟨fun s => rfl, fun iter => rfl, by decide⟩

/-- C3: false on the code.  The numbered-escape loop of the CSI sub-parser
calls `unwrap` on the iterator, so it panics when the source ends after
Esc [ 1, when the source yields an IO error there, and when a `~`-terminated
parameter list does not parse as numbers (Esc [ 1 ! ~), instead of returning
an `Other` key. -/
theorem c3_csi_numeric_loop_panics :
    parse_csi [Except.ok 0x31] = .crash ∧
    parse_csi [Except.ok 0x31, Except.error 5] = .crash ∧
    parse_csi [Except.ok 0x31, Except.ok 0x21, Except.ok 0x7E] = .crash ∧
    parse_key 0x1B [Except.ok 0x5B, Except.ok 0x31] = .crash := by
  refine ⟨by decide, by decide, by decide, by decide⟩

/-- C4 counterexample: an IO error at the first read inside the CSI sub-parser
is not returned from `parse_key`; it is folded into an `Other` fallback. -/
theorem c4_csi_swallows_error :
    parse_key 0x1B [Except.ok 0x5B, Except.error 7] =
      .ok (Key.Other [0x1B, 0x5B]) [] ∧
    ∀ rest, parse_key 0x1B [Except.ok 0x5B, Except.error 7] ≠ .ioErr 7 rest := by
  exact ⟨rfl, fun rest h => PRes.noConfusion
    (show PRes.ok (Key.Other [0x1B, 0x5B]) ([] : ByteStream) = PRes.ioErr 7 rest from h)⟩

/-- C4 as amended: an IO error is returned verbatim from the read performed by
`getch` itself and from the read of the byte immediately after Esc in
`parse_key`; an error at a read inside the CSI sub-parser is folded into an
`Other` fallback (and panics inside the numbered-escape loop), and an error at
a read inside the UTF-8 continuation decoder ends accumulation, yielding the
bytes collected so far as a failure payload instead of the error. -/
theorem c4_error_propagation_scope :
    (∀ e s, getch none (ReadResult.fail e) s = some (.ioErr e s, none)) ∧
    (∀ e rest, parse_key 0x1B (Except.error e :: rest) = .ioErr e rest) ∧
    (∀ e rest, parse_csi (Except.error e :: rest) = .ok (Key.Other [0x1B, 0x5B]) rest) ∧
    (∀ c e rest, 0x7F < c →
      parse_utf8_char c (Except.error e :: rest) = .ok (Except.error [c]) rest) ∧
    (∀ buf e rest, csi_num_loop buf (Except.error e :: rest) = .crash) := by
  refine ⟨fun e s => rfl, fun e rest => rfl, fun e rest => rfl, ?_, fun buf e rest => rfl⟩
  intro c e rest hc
  unfold parse_utf8_char
  rw [if_neg (by omega)]
  rfl

/-- Witness for C4: the amended statement at concrete inputs. -/
theorem c4_error_propagation_scope_witness :
    parse_utf8_char 0xC3 [Except.error 7] = .ok (Except.error [0xC3]) [] :=
  c4_error_propagation_scope.2.2.2.1 0xC3 7 [] (by omega)

/-- C7: after the earlier dispatch rules for newline, carriage return, tab and
0x08, a byte in 0x01..=0x1A yields `Ctrl` of the letter 'a' + (byte - 1), and
a byte in 0x1C..=0x1F yields `Ctrl` of the digit mapped onto '4'..'7'; in
particular 0x03 gives Ctrl('c') and 0x1C gives Ctrl('4'). -/
theorem c7_ctrl_mapping :
    (∀ b iter, 0x01 ≤ b → b ≤ 0x1A → b ≠ 0x08 → b ≠ 0x09 → b ≠ 0x0A → b ≠ 0x0D →
      parse_key b iter = .ok (Key.Ctrl (0x61 + (b - 1))) iter) ∧
    (∀ b iter, 0x1C ≤ b → b ≤ 0x1F →
      parse_key b iter = .ok (Key.Ctrl (0x34 + (b - 0x1C))) iter) ∧
    (∀ iter, parse_key 0x03 iter = .ok (Key.Ctrl 0x63) iter) ∧
    (∀ iter, parse_key 0x1C iter = .ok (Key.Ctrl 0x34) iter) := by
  refine ⟨?_, ?_, fun iter => rfl, fun iter => rfl⟩
  · intro b iter h1 h2 h3 h4 h5 h6
    interval_cases b <;> first | rfl | omega
  · intro b iter h1 h2
    interval_cases b <;> rfl

/-- Witness for C7: the hypotheses hold at 0x03, and parse(0x03) is
Ctrl('c'). -/
theorem c7_ctrl_mapping_witness :
    parse_key 0x03 [] = .ok (Key.Ctrl (0x61 + (0x03 - 1))) [] :=
  c7_ctrl_mapping.1 0x03 [] (by decide) (by decide) (by decide) (by decide)
    (by decide) (by decide)

/-- C8: when a 2-byte read is decoded and the decoder consumes nothing beyond
the first byte, the second byte is stored in the leftover slot and the next
call decodes starting exactly from it on the unchanged remaining stream; a
2-byte UTF-8 character (0xC3 0xA9) decodes correctly when the read returns
only the lead byte (continuation pulled live), and also across a call
boundary via the leftover slot. -/
theorem c8_leftover_carry :
    (∀ a b s k, parse_key a (Except.ok b :: s) = .ok k (Except.ok b :: s) →
      getch none (ReadResult.bytes [a, b]) s = some (.ok k s, some b)) ∧
    (∀ b rd s, getch (some b) rd s = some (parse_key b s, none)) ∧
    getch none (ReadResult.bytes [0xC3]) [Except.ok 0xA9] =
      some (.ok (Key.Char 0xE9) [], none) ∧
    getch none (ReadResult.bytes [0x61, 0xC3]) [Except.ok 0xA9] =
      some (.ok (Key.Char 0x61) [Except.ok 0xA9], some 0xC3) ∧
    (∀ rd, getch (some 0xC3) rd [Except.ok 0xA9] =
      some (.ok (Key.Char 0xE9) [], none)) := by
  refine ⟨?_, fun b rd s => rfl, by decide, by decide, fun rd => rfl⟩
  intro a b s k h
  simp only [getch, h, List.length_cons]
  rw [if_pos trivial]

/-- Witness for C8: the consumed-nothing hypothesis holds for an ASCII first
byte 0x61 followed by 0xC3. -/
theorem c8_leftover_carry_witness :
    getch none (ReadResult.bytes [0x61, 0xC3]) [Except.ok 0xA9] =
      some (.ok (Key.Char 0x61) [Except.ok 0xA9], some 0xC3) :=
  c8_leftover_carry.1 0x61 0xC3 [Except.ok 0xA9] (Key.Char 0x61) (by decide)

/-- C10: under the model in which a read into the 2-byte buffer delivers at
most 2 bytes, the arm of `getch` for a longer read (the `unreachable` arm,
modelled as the `none` result) is never taken, and each outcome of 0, 1 or 2
bytes is handled by an explicit branch returning a value. -/
theorem c10_read_branches :
    (∀ lo rd s, readLen rd ≤ 2 → (getch lo rd s).isSome = true) ∧
    (∀ s, getch none (ReadResult.bytes []) s = some (.ok (Key.Ctrl 0x7A) s, none)) ∧
    (∀ b s, b ≠ 0x1B → getch none (ReadResult.bytes [b]) s = some (parse_key b s, none)) ∧
    (∀ s, getch none (ReadResult.bytes [0x1B]) s = some (.ok Key.Esc s, none)) ∧
    (∀ b0 b1 s, (getch none (ReadResult.bytes [b0, b1]) s).isSome = true) := by
  have h1 : ∀ lo rd s, readLen rd ≤ 2 → (getch lo rd s).isSome = true := by
    intro lo rd s h
    cases lo with
    | some c => rfl
    | none =>
      cases rd with
      | fail e => rfl
      | bytes l =>
        rcases l with _ | ⟨b0, _ | ⟨b1, _ | ⟨b2, l3⟩⟩⟩
        · rfl
        · by_cases hb : b0 = 0x1B
          · simp [getch, hb]
          · simp [getch, hb]
        · rcases hp : parse_key b0 (Except.ok b1 :: s) with ⟨k, rest⟩ | ⟨e, rest⟩ | _
          · simp only [getch, hp]
            split <;> rfl
          · simp only [getch, hp]
            split <;> rfl
          · simp only [getch, hp]
            rfl
        · simp only [readLen, List.length_cons] at h
          omega
  refine ⟨h1, fun s => rfl, ?_, fun s => rfl, ?_⟩
  · intro b s hb
    simp [getch, hb]
  · intro b0 b1 s
    exact h1 none (ReadResult.bytes [b0, b1]) s (by simp [readLen])

/-- Witness for C10: the bound hypothesis holds for a 0-byte read. -/
theorem c10_read_branches_witness :
    (getch none (ReadResult.bytes []) ([] : ByteStream)).isSome = true :=
  c10_read_branches.1 none (ReadResult.bytes []) [] (by decide)

/-- Lists of ASCII bytes pass the UTF-8 chain check with fuel equal to their
length. -/
theorem utf8ChainOk_ascii : ∀ (l : List Nat), (∀ b ∈ l, b ≤ 0x7F) →
    utf8ChainOk l.length l = true := by
  intro l
  induction l with
  | nil => intro _; rfl
  | cons b r ih =>
    intro h
    have hb : b ≤ 0x7F := h b (List.mem_cons_self b r)
    have hdec : utf8DecodeOne (b :: r) = some (b, r) := by
      simp only [utf8DecodeOne]
      rw [if_pos hb]
    simp only [List.length_cons, utf8ChainOk, hdec]
    exact ih fun x hx => h x (List.mem_cons_of_mem b hx)

/-- Lists of ASCII bytes are valid UTF-8. -/
theorem validUtf8_ascii (l : List Nat) (h : ∀ b ∈ l, b ≤ 0x7F) :
    validUtf8 l = true :=
  utf8ChainOk_ascii l h

/-- Splitting on semicolons is the identity piece when no byte is a
semicolon. -/
theorem splitSemi_no_semi : ∀ (l : List Nat), (∀ b ∈ l, b ≠ 0x3B) →
    splitSemi l = [l] := by
  intro l
  induction l with
  | nil => intro _; rfl
  | cons b r ih =>
    intro h
    have hb : b ≠ 0x3B := h b (List.mem_cons_self b r)
    have hr := ih fun x hx => h x (List.mem_cons_of_mem b hx)
    simp only [splitSemi]
    rw [if_neg hb, hr]

/-- A nonempty all-digit byte list with value at most 255 parses to its
value. -/
theorem parse_u8_of_digits (ds : List Nat) (v : Nat) (hne : ds ≠ [])
    (hdig : ∀ d ∈ ds, 0x30 ≤ d ∧ d ≤ 0x39) (hval : digitsVal ds = some v)
    (hv : v ≤ 0xFF) : parse_u8 ds = some v := by
  cases ds with
  | nil => exact absurd rfl hne
  | cons d r =>
    have hd := hdig d (List.mem_cons_self d r)
    unfold parse_u8
    rw [if_neg (by simp only [List.head?_cons, Option.some.injEq]; omega)]
    unfold parseU8Core
    rw [if_neg (by simp)]
    rw [hval]
    show (if v ≤ 0xFF then some v else none) = some v
    rw [if_pos hv]

/-- The parameter list of an all-digit buffer is the single parsed value. -/
theorem parseParams_single (ds : List Nat) (v : Nat) (hne : ds ≠ [])
    (hdig : ∀ d ∈ ds, 0x30 ≤ d ∧ d ≤ 0x39) (hval : digitsVal ds = some v)
    (hv : v ≤ 0xFF) : parseParams ds = some [v] := by
  unfold parseParams
  rw [splitSemi_no_semi ds fun b hb => by have := hdig b hb; omega]
  show (parse_u8 ds).elim none _ = some [v]
  rw [parse_u8_of_digits ds v hne hdig hval hv]
  rfl

set_option maxHeartbeats 1000000 in
/-- A `~`-terminated all-digit CSI buffer with a recognized value resolves to
the claim's key table. -/
theorem csi_num_finish_recognized (ds : List Nat) (rest : ByteStream) (v : Nat)
    (hne : ds ≠ []) (hdig : ∀ d ∈ ds, 0x30 ≤ d ∧ d ≤ 0x39)
    (hval : digitsVal ds = some v) (hrec : csiRecognized v) :
    csi_num_finish ds 0x7E rest = .ok (specTildeKey v) rest := by
  have hv : v ≤ 0xFF := by unfold csiRecognized at hrec; omega
  unfold csi_num_finish
  rw [if_pos rfl]
  rw [if_pos (validUtf8_ascii ds fun b hb => by have := hdig b hb; omega)]
  rw [parseParams_single ds v hne hdig hval hv]
  simp only [Option.elim, List.headD_cons]
  rw [if_neg (by simp)]
  unfold csiRecognized at hrec
  unfold specTildeKey
  split_ifs <;> first | rfl | (exfalso; omega)

/-- The numbered-escape loop walks over non-final bytes and hands the
accumulated buffer plus the final byte to the finish step. -/
theorem csi_num_loop_digits (t : Nat) (ht1 : 64 ≤ t) (ht2 : t ≤ 126) :
    ∀ (ds buf : List Nat) (rest : ByteStream), (∀ d ∈ ds, d < 64) →
      csi_num_loop buf (ds.map Except.ok ++ Except.ok t :: rest) =
        csi_num_finish (buf ++ ds) t rest := by
  intro ds
  induction ds with
  | nil =>
    intro buf rest _
    simp only [List.map_nil, List.nil_append, csi_num_loop, List.append_nil]
    rw [if_pos ⟨ht1, ht2⟩]
  | cons d ds ih =>
    intro buf rest h
    have hd : d < 64 := h d (List.mem_cons_self d ds)
    simp only [List.map_cons, List.cons_append, csi_num_loop, List.append_eq]
    rw [if_neg (by omega)]
    rw [ih (buf ++ [d]) rest fun x hx => h x (List.mem_cons_of_mem d hx)]
    rw [List.append_assoc]
    rfl

/-- An all-digit sequence followed by `~` reaches the finish step of the CSI
sub-parser with exactly those digits as buffer. -/
theorem parse_csi_digits (ds : List Nat) (rest : ByteStream) (hne : ds ≠ [])
    (hdig : ∀ d ∈ ds, 0x30 ≤ d ∧ d ≤ 0x39) :
    parse_csi (ds.map Except.ok ++ Except.ok 0x7E :: rest) =
      csi_num_finish ds 0x7E rest := by
  cases ds with
  | nil => exact absurd rfl hne
  | cons d r =>
    have hd := hdig d (List.mem_cons_self d r)
    have hq1 : ¬ d = 0x5B := by omega
    have hq2 : ¬ d = 0x41 := by omega
    have hq3 : ¬ d = 0x42 := by omega
    have hq4 : ¬ d = 0x43 := by omega
    have hq5 : ¬ d = 0x44 := by omega
    have hq6 : ¬ d = 0x46 := by omega
    have hq7 : ¬ d = 0x48 := by omega
    have hq8 : ¬ d = 0x5A := by omega
    simp only [List.map_cons, List.cons_append, parse_csi]
    rw [if_neg hq1, if_neg hq2, if_neg hq3, if_neg hq4, if_neg hq5, if_neg hq6,
      if_neg hq7, if_neg hq8, if_pos hd]
    exact csi_num_loop_digits 0x7E (by omega) (by omega) r [d] rest
      fun x hx => by have := hdig x (List.mem_cons_of_mem d hx); omega

/-- C5: the single-byte CSI finals A, B, C, D, F, H, Z map to Up, Down, Right,
Left, End, Home, Back-tab, and a digit-leading sequence terminated by `~`
whose single numeric parameter is recognized maps by the claimed table
(1 or 7 Home, 2 Insert, 3 Delete, 4 or 8 End, 5 PageUp, 6 PageDown,
11-15 F1..F5, 17-21 F6..F10, 23-24 F11..F12); in particular Esc [ 1 ~ is
Home, Esc [ 3 ~ is Delete and Esc [ 1 5 ~ is F5. -/
theorem c5_csi_key_table (ds : List Nat) (rest : ByteStream) (v : Nat)
    (hne : ds ≠ []) (hdig : ∀ d ∈ ds, 0x30 ≤ d ∧ d ≤ 0x39)
    (hval : digitsVal ds = some v) (hrec : csiRecognized v) :
    (∀ r, parse_csi (Except.ok 0x41 :: r) = .ok Key.Up r) ∧
    (∀ r, parse_csi (Except.ok 0x42 :: r) = .ok Key.Down r) ∧
    (∀ r, parse_csi (Except.ok 0x43 :: r) = .ok Key.Right r) ∧
    (∀ r, parse_csi (Except.ok 0x44 :: r) = .ok Key.Left r) ∧
    (∀ r, parse_csi (Except.ok 0x46 :: r) = .ok Key.End r) ∧
    (∀ r, parse_csi (Except.ok 0x48 :: r) = .ok Key.Home r) ∧
    (∀ r, parse_csi (Except.ok 0x5A :: r) = .ok Key.BackTab r) ∧
    parse_csi (ds.map Except.ok ++ Except.ok 0x7E :: rest) =
      .ok (specTildeKey v) rest ∧
    parse_key 0x1B [Except.ok 0x5B, Except.ok 0x31, Except.ok 0x7E] = .ok Key.Home [] ∧
    parse_key 0x1B [Except.ok 0x5B, Except.ok 0x33, Except.ok 0x7E] = .ok Key.Delete [] ∧
    parse_key 0x1B [Except.ok 0x5B, Except.ok 0x31, Except.ok 0x35, Except.ok 0x7E] =
      .ok (Key.F 5) [] := by
  refine ⟨fun r => rfl, fun r => rfl, fun r => rfl, fun r => rfl, fun r => rfl,
    fun r => rfl, fun r => rfl, ?_, by decide, by decide, by decide⟩
  rw [parse_csi_digits ds rest hne hdig,
    csi_num_finish_recognized ds rest v hne hdig hval hrec]

/-- Witness for C5: the hypotheses hold for the digits 1 5 with value 15, and
Esc [ 1 5 ~ resolves to F5. -/
theorem c5_csi_key_table_witness :
    parse_csi [Except.ok 0x31, Except.ok 0x35, Except.ok 0x7E] =
      .ok (Key.F 5) [] :=
  (c5_csi_key_table [0x31, 0x35] [] 15 (by decide) (by decide) (by decide)
    (by decide)).2.2.2.2.2.2.2.1

/-- okBytes of the empty fragment. -/
theorem okBytes_nil : okBytes [] = [] := rfl

/-- okBytes over a successful item. -/
theorem okBytes_ok (b : Nat) (l : ByteStream) :
    okBytes (Except.ok b :: l) = b :: okBytes l := by
  simp [okBytes]

/-- okBytes over an error item. -/
theorem okBytes_error (e : Nat) (l : ByteStream) :
    okBytes (Except.error e :: l) = okBytes l := by
  simp [okBytes]

/-- okBytes never yields more bytes than the fragment has items. -/
theorem okBytes_length_le : ∀ (l : ByteStream), (okBytes l).length ≤ l.length := by
  intro l
  induction l with
  | nil => simp [okBytes]
  | cons x r ih =>
    cases x with
    | ok b =>
      rw [okBytes_ok]
      simp only [List.length_cons]
      omega
    | error e =>
      rw [okBytes_error]
      simp only [List.length_cons]
      omega

/-- A nonempty valid UTF-8 list has a decodable first character. -/
theorem validUtf8_decodeOne (l : List Nat) (hne : l ≠ []) (h : validUtf8 l = true) :
    ∃ c r, utf8DecodeOne l = some (c, r) := by
  cases l with
  | nil => exact absurd rfl hne
  | cons b r =>
    unfold validUtf8 at h
    simp only [List.length_cons, utf8ChainOk] at h
    rcases hd : utf8DecodeOne (b :: r) with _ | ⟨c, rr⟩
    · rw [hd] at h
      simp at h
    · exact ⟨c, rr, rfl⟩

/-- Specification of the UTF-8 accumulation loop: it always returns normally,
consumes at most enough items to grow the buffer to 4 bytes, reports failures
with exactly the collected bytes, and reports successes only when the
collected buffer is valid with the returned character as its first scalar. -/
theorem parse_utf8_loop_spec : ∀ (iter : ByteStream) (bytes : List Nat),
    bytes ≠ [] → bytes.length ≤ 3 →
    ∃ res rest pre, parse_utf8_loop bytes iter = .ok res rest ∧
      iter = pre ++ rest ∧ bytes.length + pre.length ≤ 4 ∧
      (∀ p, res = Except.error p → p = bytes ++ okBytes pre) ∧
      (∀ ch, res = Except.ok ch → validUtf8 (bytes ++ okBytes pre) = true ∧
        ∃ r2, utf8DecodeOne (bytes ++ okBytes pre) = some (ch, r2)) := by
  intro iter
  induction iter with
  | nil =>
    intro bytes hne hlen
    refine ⟨Except.error bytes, [], [], rfl, rfl, ?_, ?_, ?_⟩
    · simp only [List.length_nil]
      omega
    · intro p hp
      injection hp with h1
      rw [← h1, okBytes_nil, List.append_nil]
    · intro ch hch
      exact Except.noConfusion hch
  | cons x rest ih =>
    intro bytes hne hlen
    cases x with
    | error e =>
      refine ⟨Except.error bytes, rest, [Except.error e], rfl, rfl, ?_, ?_, ?_⟩
      · simp only [List.length_cons, List.length_nil]
        omega
      · intro p hp
        injection hp with h1
        rw [← h1, okBytes_error, okBytes_nil, List.append_nil]
      · intro ch hch
        exact Except.noConfusion hch
    | ok b =>
      by_cases hv : validUtf8 (bytes ++ [b]) = true
      · obtain ⟨c0, r0, hdec⟩ := validUtf8_decodeOne (bytes ++ [b]) (by simp) hv
        refine ⟨Except.ok c0, rest, [Except.ok b], ?_, rfl, ?_, ?_, ?_⟩
        · simp only [parse_utf8_loop]
          rw [if_pos hv, hdec]
        · simp only [List.length_cons, List.length_nil]
          omega
        · intro p hp
          exact Except.noConfusion hp
        · intro ch hch
          injection hch with h1
          rw [okBytes_ok, okBytes_nil]
          rw [← h1]
          exact ⟨hv, r0, hdec⟩
      · by_cases h4 : 4 ≤ (bytes ++ [b]).length
        · refine ⟨Except.error (bytes ++ [b]), rest, [Except.ok b], ?_, rfl, ?_, ?_, ?_⟩
          · simp only [parse_utf8_loop]
            rw [if_neg hv, if_pos h4]
          · simp only [List.length_cons, List.length_nil]
            omega
          · intro p hp
            injection hp with h1
            rw [← h1, okBytes_ok, okBytes_nil]
          · intro ch hch
            exact Except.noConfusion hch
        · have hne2 : bytes ++ [b] ≠ [] := by simp
          have hlen2 : (bytes ++ [b]).length ≤ 3 := by
            simp only [List.length_append, List.length_cons, List.length_nil] at h4 ⊢
            omega
          obtain ⟨res, rest2, pre2, heq, hsplit, hlen3, herr, hok⟩ :=
            ih (bytes ++ [b]) hne2 hlen2
          refine ⟨res, rest2, Except.ok b :: pre2, ?_, ?_, ?_, ?_, ?_⟩
          · simp only [parse_utf8_loop]
            rw [if_neg hv, if_neg h4]
            exact heq
          · rw [List.cons_append, ← hsplit]
          · simp only [List.length_append, List.length_cons, List.length_nil] at hlen3 ⊢
            omega
          · intro p hp
            have h1 := herr p hp
            rw [okBytes_ok, h1, List.append_assoc]
            rfl
          · intro ch hch
            have h1 := hok ch hch
            rw [okBytes_ok]
            rw [List.append_assoc] at h1
            exact h1

/-- C6: an ASCII leading byte decodes directly with nothing consumed; for a
non-ASCII leading byte the continuation decoder always returns normally
(never panics), consumes at most 3 further items, on failure yields exactly
the bytes collected so far (at most 4), and on success yields the first
scalar of the collected valid buffer. -/
theorem c6_utf8_bounded (c : Nat) (iter : ByteStream) :
    (c ≤ 0x7F → parse_utf8_char c iter = .ok (Except.ok c) iter) ∧
    (0x7F < c → ∃ res rest pre, parse_utf8_char c iter = .ok res rest ∧
      iter = pre ++ rest ∧ pre.length ≤ 3 ∧
      (∀ p, res = Except.error p → p = c :: okBytes pre ∧ p.length ≤ 4) ∧
      (∀ ch, res = Except.ok ch → validUtf8 (c :: okBytes pre) = true ∧
        ∃ r2, utf8DecodeOne (c :: okBytes pre) = some (ch, r2))) := by
  constructor
  · intro h
    unfold parse_utf8_char
    rw [if_pos h]
  · intro h
    obtain ⟨res, rest, pre, heq, hsplit, hlen, herr, hok⟩ :=
      parse_utf8_loop_spec iter [c] (by simp) (by simp)
    have hpre : pre.length ≤ 3 := by
      simp only [List.length_cons, List.length_nil] at hlen
      omega
    refine ⟨res, rest, pre, ?_, hsplit, hpre, ?_, ?_⟩
    · unfold parse_utf8_char
      rw [if_neg (by omega)]
      exact heq
    · intro p hp
      have h1 := herr p hp
      refine ⟨h1, ?_⟩
      rw [h1]
      have h2 := okBytes_length_le pre
      simp only [List.cons_append, List.nil_append, List.length_cons]
      omega
    · intro ch hch
      exact hok ch hch

/-- Witness for C6: the ASCII hypothesis holds at byte 0x61. -/
theorem c6_utf8_bounded_witness :
    parse_utf8_char 0x61 [] = .ok (Except.ok 0x61) [] :=
  (c6_utf8_bounded 0x61 []).1 (by decide)

/-- Wrapping a UTF-8 decode outcome with a non-F constructor never yields an
F key. -/
theorem utf8ToKey_not_F (mk : Nat → Key) (hmk : ∀ ch m, mk ch ≠ Key.F m) :
    ∀ (x : PRes (Except (List Nat) Nat)) (n : Nat) (r : ByteStream),
      utf8ToKey mk x ≠ .ok (Key.F n) r := by
  intro x n r h
  rcases x with ⟨val, s⟩ | ⟨e, s⟩ | _
  · rcases val with vec | ch
    · simp only [utf8ToKey] at h
      injection h with hk hr
      exact Key.noConfusion hk
    · simp only [utf8ToKey] at h
      injection h with hk hr
      exact hmk ch n hk
  · simp only [utf8ToKey] at h
    exact PRes.noConfusion h
  · simp only [utf8ToKey] at h
    exact PRes.noConfusion h

/-- Every F key produced by the finish step of the numeric CSI path has its
number between 1 and 12. -/
theorem csi_num_finish_F_bound (buf : List Nat) (c : Nat) (rest r : ByteStream)
    (n : Nat) (h : csi_num_finish buf c rest = .ok (Key.F n) r) :
    1 ≤ n ∧ n ≤ 12 := by
  unfold csi_num_finish at h
  by_cases h1 : c = 0x7E
  · rw [if_pos h1] at h
    by_cases h2 : validUtf8 buf = true
    · rw [if_pos h2] at h
      rcases hp : parseParams buf with _ | nums
      · rw [hp] at h
        exact PRes.noConfusion h
      · rw [hp] at h
        simp only [Option.elim] at h
        by_cases h3 : nums.isEmpty = true ∨ 1 < nums.length
        · rw [if_pos h3] at h
          injection h with hk hr
          exact Key.noConfusion hk
        · rw [if_neg h3] at h
          split_ifs at h <;>
            first
            | (injection h with hk hr;
               first
               | exact Key.noConfusion hk
               | (injection hk with hn; omega))
    · rw [if_neg h2] at h
      exact PRes.noConfusion h
  · rw [if_neg h1] at h
    injection h with hk hr
    exact Key.noConfusion hk

/-- Every F key produced by the numbered-escape loop has its number between
1 and 12. -/
theorem csi_num_loop_F_bound : ∀ (iter : ByteStream) (buf : List Nat) (n : Nat)
    (r : ByteStream), csi_num_loop buf iter = .ok (Key.F n) r → 1 ≤ n ∧ n ≤ 12 := by
  intro iter
  induction iter with
  | nil =>
    intro buf n r h
    exact PRes.noConfusion h
  | cons x rest ih =>
    intro buf n r h
    cases x with
    | error e => exact PRes.noConfusion h
    | ok c =>
      simp only [csi_num_loop] at h
      by_cases hc : 64 ≤ c ∧ c ≤ 126
      · rw [if_pos hc] at h
        exact csi_num_finish_F_bound buf c rest r n h
      · rw [if_neg hc] at h
        exact ih (buf ++ [c]) n r h

/-- The legacy Esc [ [ path only yields F1..F5. -/
theorem parse_csi_legacy_F_bound (iter : ByteStream) (n : Nat) (r : ByteStream)
    (h : parse_csi_legacy iter = .ok (Key.F n) r) : 1 ≤ n ∧ n ≤ 5 := by
  rcases iter with _ | ⟨x, r2⟩
  · injection h with hk hr
    exact Key.noConfusion hk
  · cases x with
    | error e =>
      injection h with hk hr
      exact Key.noConfusion hk
    | ok v =>
      simp only [parse_csi_legacy] at h
      by_cases hv : 0x41 ≤ v ∧ v ≤ 0x45
      · rw [if_pos hv] at h
        injection h with hk hr
        injection hk with hn
        omega
      · rw [if_neg hv] at h
        injection h with hk hr
        exact Key.noConfusion hk

/-- The SS3 Esc O path only yields F1..F4. -/
theorem parse_ss3_F_bound (iter : ByteStream) (n : Nat) (r : ByteStream)
    (h : parse_ss3 iter = .ok (Key.F n) r) : 1 ≤ n ∧ n ≤ 4 := by
  rcases iter with _ | ⟨x, r2⟩
  · injection h with hk hr
    exact Key.noConfusion hk
  · cases x with
    | error e =>
      injection h with hk hr
      exact Key.noConfusion hk
    | ok v =>
      simp only [parse_ss3] at h
      by_cases hv : 0x50 ≤ v ∧ v ≤ 0x53
      · rw [if_pos hv] at h
        injection h with hk hr
        injection hk with hn
        omega
      · rw [if_neg hv] at h
        injection h with hk hr
        exact Key.noConfusion hk

/-- Every F key produced by the CSI sub-parser has its number between 1 and
12. -/
theorem parse_csi_F_bound : ∀ (iter : ByteStream) (n : Nat) (r : ByteStream),
    parse_csi iter = .ok (Key.F n) r → 1 ≤ n ∧ n ≤ 12 := by
  intro iter n r h
  rcases iter with _ | ⟨x, rest⟩
  · injection h with hk hr
    exact Key.noConfusion hk
  · cases x with
    | error e =>
      injection h with hk hr
      exact Key.noConfusion hk
    | ok b =>
      simp only [parse_csi] at h
      by_cases hb : b = 0x5B
      · rw [if_pos hb] at h
        obtain ⟨ha, hb2⟩ := parse_csi_legacy_F_bound rest n r h
        exact ⟨ha, by omega⟩
      · rw [if_neg hb] at h
        split_ifs at h <;>
          first
          | (injection h with hk hr; exact Key.noConfusion hk)
          | exact csi_num_loop_F_bound rest [b] n r h

/-- Every F key produced by `parse_key` has its number between 1 and 12. -/
theorem parse_key_F_bound : ∀ (item : Nat) (iter : ByteStream) (n : Nat)
    (r : ByteStream), parse_key item iter = .ok (Key.F n) r → 1 ≤ n ∧ n ≤ 12 := by
  intro item iter n r h
  unfold parse_key at h
  by_cases h1 : item = 0x1B
  · rw [if_pos h1] at h
    rcases iter with _ | ⟨x, rest⟩
    · injection h with hk hr
      exact Key.noConfusion hk
    · cases x with
      | error e => exact PRes.noConfusion h
      | ok c =>
        replace h : (if c = 0x5B then parse_csi rest
            else if c = 0x4F then parse_ss3 rest
            else utf8ToKey Key.Alt (parse_utf8_char c rest)) = PRes.ok (Key.F n) r := h
        by_cases h2 : c = 0x5B
        · rw [if_pos h2] at h
          exact parse_csi_F_bound rest n r h
        · rw [if_neg h2] at h
          by_cases h3 : c = 0x4F
          · rw [if_pos h3] at h
            obtain ⟨ha, hb⟩ := parse_ss3_F_bound rest n r h
            exact ⟨ha, by omega⟩
          · rw [if_neg h3] at h
            exact absurd h
              (utf8ToKey_not_F Key.Alt (fun ch m hh => Key.noConfusion hh) _ n r)
  · rw [if_neg h1] at h
    split_ifs at h <;>
      first
      | (injection h with hk hr; exact Key.noConfusion hk)
      | exact absurd h
          (utf8ToKey_not_F Key.Char (fun ch m hh => Key.noConfusion hh) _ n r)

/-- Every F key returned from a `getch` call has its number between 1 and
12. -/
theorem getch_F_bound : ∀ (lo : Option Nat) (rd : ReadResult) (s : ByteStream)
    (n : Nat) (rest : ByteStream) (lo2 : Option Nat),
    getch lo rd s = some (.ok (Key.F n) rest, lo2) → 1 ≤ n ∧ n ≤ 12 := by
  intro lo rd s n rest lo2 h
  cases lo with
  | some c =>
    replace h : some (parse_key c s, (none : Option Nat)) =
        some (PRes.ok (Key.F n) rest, lo2) := h
    injection h with h1
    injection h1 with h2 h3
    exact parse_key_F_bound c s n rest h2
  | none =>
    cases rd with
    | fail e =>
      replace h : some ((PRes.ioErr e s : PRes Key), (none : Option Nat)) =
          some (PRes.ok (Key.F n) rest, lo2) := h
      injection h with h1
      injection h1 with h2 h3
      exact PRes.noConfusion h2
    | bytes l =>
      rcases l with _ | ⟨b0, _ | ⟨b1, _ | ⟨b2, l3⟩⟩⟩
      · replace h : some ((PRes.ok (Key.Ctrl 0x7A) s : PRes Key), (none : Option Nat)) =
            some (PRes.ok (Key.F n) rest, lo2) := h
        injection h with h1
        injection h1 with h2 h3
        injection h2 with hk hr
        exact Key.noConfusion hk
      · replace h : (if b0 = 0x1B then some ((PRes.ok Key.Esc s : PRes Key), (none : Option Nat))
            else some (parse_key b0 s, none)) = some (PRes.ok (Key.F n) rest, lo2) := h
        by_cases hb : b0 = 0x1B
        · rw [if_pos hb] at h
          injection h with h1
          injection h1 with h2 h3
          injection h2 with hk hr
          exact Key.noConfusion hk
        · rw [if_neg hb] at h
          injection h with h1
          injection h1 with h2 h3
          exact parse_key_F_bound b0 s n rest h2
      · simp only [getch] at h
        rcases hp : parse_key b0 (Except.ok b1 :: s) with ⟨k, rest1⟩ | ⟨e, rest1⟩ | _ <;>
          rw [hp] at h
        · replace h : (if rest1.length = s.length + 1
              then some ((PRes.ok k s : PRes Key), some b1)
              else some (PRes.ok k rest1, none)) = some (PRes.ok (Key.F n) rest, lo2) := h
          split_ifs at h <;>
            (injection h with h1; injection h1 with h2 h3;
             injection h2 with hk hr; rw [hk] at hp;
             exact parse_key_F_bound b0 (Except.ok b1 :: s) n _ hp)
        · replace h : (if rest1.length = s.length + 1
              then some ((PRes.ioErr e s : PRes Key), some b1)
              else some (PRes.ioErr e rest1, none)) = some (PRes.ok (Key.F n) rest, lo2) := h
          split_ifs at h <;>
            (injection h with h1; injection h1 with h2 h3; exact PRes.noConfusion h2)
        · replace h : some ((PRes.crash : PRes Key), (none : Option Nat)) =
              some (PRes.ok (Key.F n) rest, lo2) := h
          injection h with h1
          injection h1 with h2 h3
          exact PRes.noConfusion h2
      · exact Option.noConfusion h

/-- C9: every F key the decoder emits has a number between 1 and 12: the SS3
path yields only F1..F4, the legacy Esc [ [ path only F1..F5, the numeric
`~` path only F1..F12, and no `parse_key` or `getch` outcome exceeds F12. -/
theorem c9_fkey_bounds :
    (∀ item iter n r, parse_key item iter = .ok (Key.F n) r → 1 ≤ n ∧ n ≤ 12) ∧
    (∀ iter n r, parse_ss3 iter = .ok (Key.F n) r → 1 ≤ n ∧ n ≤ 4) ∧
    (∀ iter n r, parse_csi_legacy iter = .ok (Key.F n) r → 1 ≤ n ∧ n ≤ 5) ∧
    (∀ buf c rest n r, csi_num_finish buf c rest = .ok (Key.F n) r → 1 ≤ n ∧ n ≤ 12) ∧
    (∀ lo rd s n rest lo2, getch lo rd s = some (.ok (Key.F n) rest, lo2) →
      1 ≤ n ∧ n ≤ 12) :=
  ⟨fun item iter n r h => parse_key_F_bound item iter n r h,
   fun iter n r h => parse_ss3_F_bound iter n r h,
   fun iter n r h => parse_csi_legacy_F_bound iter n r h,
   fun buf c rest n r h => csi_num_finish_F_bound buf c rest r n h,
   fun lo rd s n rest lo2 h => getch_F_bound lo rd s n rest lo2 h⟩

/-- Witness for C9: Esc O P decodes to F1, whose number is within bounds. -/
theorem c9_fkey_bounds_witness : 1 ≤ 1 ∧ 1 ≤ 12 :=
  c9_fkey_bounds.1 0x1B [Except.ok 0x4F, Except.ok 0x50] 1 [] (by decide)

end GetchRs
